import Mathlib

/-!
Shallow embedding of the GhulbusBase allocation strategies
(`gbBase/Allocator/AllocationStrategyMonotonic.hpp`,
`AllocationStrategyStack.hpp`, `AllocationStrategyPool.hpp`,
`AllocationStrategyRing.hpp`) and of the concurrent ring pool
(`gbBase/RingPool.hpp`), together with proofs about the claims of the
specification.

Machine addresses are modelled as `Nat`; a strategy's storage is the
address interval `[base, base + size)`.  `std::align(a, n, ptr, space)`
bumps `ptr` up to the next multiple of `a` and succeeds iff the aligned
pointer plus `n` still fits inside `ptr + space`; this is the `alignUp`
function below plus the explicit comparison at each call site.
On the reference platform (x86-64) `sizeof(std::uintptr_t) = 8`, so the
`Stack`/`Pool` headers are 8 bytes, the `Ring` header (two
`std::uintptr_t`) is 16 bytes, and all of them have alignment 8.
The concurrent ring pool executes single-threadedly here: every
`compare_exchange` succeeds, since the value it expects was just loaded.
-/

/-- Round `p` up to the next multiple of `a` (pointer adjustment performed
by `std::align`; alignments are assumed positive). -/
def alignUp (p a : Nat) : Nat := ((p + a - 1) / a) * a

theorem le_alignUp (p : Nat) {a : Nat} (ha : 0 < a) : p ≤ alignUp p a := by
  unfold alignUp
  rw [Nat.mul_comm]
  have h := Nat.div_add_mod (p + a - 1) a
  have h2 : (p + a - 1) % a < a := Nat.mod_lt _ ha
  generalize hX : a * ((p + a - 1) / a) = X at h ⊢
  generalize hR : (p + a - 1) % a = R at h h2
  omega

theorem alignUp_eq_self {p a : Nat} (ha : 0 < a) (hd : a ∣ p) : alignUp p a = p := by
  obtain ⟨k, rfl⟩ := hd
  unfold alignUp
  have h1 : a * k + a - 1 = a * k + (a - 1) := by omega
  rw [h1, Nat.mul_add_div ha, Nat.div_eq_of_lt (by omega), Nat.add_zero, Nat.mul_comm]

/-! ## Monotonic allocation strategy

State of `Allocator::AllocationStrategy::Monotonic`: the storage view
(`base`/`size` model `m_storage.ptr`/`m_storage.size`) and `m_offset`. -/

structure Monotonic where
  base : Nat
  size : Nat
  offset : Nat
  deriving DecidableEq, Repr

/-- A freshly constructed `Monotonic` over the given storage (`m_offset = 0`). -/
def Monotonic.init (base size : Nat) : Monotonic := ⟨base, size, 0⟩

/-- `Monotonic::allocate(n, alignment)`: clamp `n` to at least 1, align
`m_storage.ptr + m_offset`, fail (`std::bad_alloc`) when the aligned block
does not fit into the free space, otherwise return the aligned pointer and
advance `m_offset` to just past the block. -/
def Monotonic.allocate (s : Monotonic) (n align : Nat) : Option (Nat × Monotonic) :=
  let n' := max n 1
  let free_space := s.size - s.offset
  let ptr := s.base + s.offset
  let aligned := alignUp ptr align
  if aligned + n' ≤ ptr + free_space then
    some (aligned, { s with offset := aligned - s.base + n' })
  else
    none

/-- `Monotonic::deallocate` is a no-op (aside from the debug policy hook). -/
def Monotonic.deallocate (s : Monotonic) (_p _n : Nat) : Monotonic := s

/-- `Monotonic::getFreeMemory()`. -/
def Monotonic.getFreeMemory (s : Monotonic) : Nat := s.size - s.offset

/-- `Monotonic::reset()`: set `m_offset` back to 0. -/
def Monotonic.reset (s : Monotonic) : Monotonic := { s with offset := 0 }

/-- Run a list of `(n, alignment)` requests, returning the list of pointers
handed out and the final state; `none` if any allocation fails. -/
def Monotonic.allocList : Monotonic → List (Nat × Nat) → Option (List Nat × Monotonic)
  | s, [] => some ([], s)
  | s, r :: rest =>
    match s.allocate r.1 r.2 with
    | none => none
    | some (p, s') =>
      match Monotonic.allocList s' rest with
      | none => none
      | some (ps, s'') => some (p :: ps, s'')

/-- The blocks handed out by a run: each pointer paired with the clamped
size `max n 1` actually consumed by the request it answered. -/
def monoBlocks (ps : List Nat) (reqs : List (Nat × Nat)) : List (Nat × Nat) :=
  List.zipWith (fun p r => (p, max r.1 1)) ps reqs

theorem Monotonic.allocate_bounds {s : Monotonic} {n align p : Nat} {s' : Monotonic}
    (ha : 0 < align) (h : s.allocate n align = some (p, s')) :
    s.base + s.offset ≤ p ∧ s'.offset = p + max n 1 - s.base ∧
    s'.base = s.base ∧ s'.size = s.size := by
  unfold Monotonic.allocate at h
  simp only at h
  split at h
  · simp only [Option.some.injEq, Prod.mk.injEq] at h
    obtain ⟨hp, hs⟩ := h
    subst hp
    subst hs
    have hle : s.base + s.offset ≤ alignUp (s.base + s.offset) align := le_alignUp _ ha
    refine ⟨hle, ?_, rfl, rfl⟩
    simp only
    omega
  · exact absurd h (by simp)

theorem Monotonic.allocList_mono {reqs : List (Nat × Nat)} :
    ∀ {s : Monotonic} {ps : List Nat} {s' : Monotonic},
    (∀ r ∈ reqs, 0 < r.2) →
    Monotonic.allocList s reqs = some (ps, s') →
    (∀ q ∈ monoBlocks ps reqs, s.base + s.offset ≤ q.1) ∧
    (∀ q ∈ ps, s.base + s.offset ≤ q) ∧
    (monoBlocks ps reqs).Pairwise (fun b c => b.1 + b.2 ≤ c.1) ∧
    ps.Pairwise (· < ·) := by
  induction reqs with
  | nil =>
    intro s ps s' _ h
    simp only [Monotonic.allocList, Option.some.injEq, Prod.mk.injEq] at h
    obtain ⟨h1, _⟩ := h
    subst h1
    simp [monoBlocks]
  | cons r rest ih =>
    intro s ps s' hpos h
    cases halloc : s.allocate r.1 r.2 with
    | none =>
      simp only [Monotonic.allocList, halloc] at h
      exact Option.noConfusion h
    | some v =>
      obtain ⟨p, s1⟩ := v
      cases hrest : Monotonic.allocList s1 rest with
      | none =>
        simp only [Monotonic.allocList, halloc, hrest] at h
        exact Option.noConfusion h
      | some w =>
        obtain ⟨ps1, s2⟩ := w
        simp only [Monotonic.allocList, halloc, hrest, Option.some.injEq,
          Prod.mk.injEq] at h
        obtain ⟨hps, _⟩ := h
        subst hps
        have hb := Monotonic.allocate_bounds (hpos r (by simp)) halloc
        have ihr := ih (fun q hq => hpos q (by simp [hq])) hrest
        have hple : s.base + s.offset ≤ p := hb.1
        have hnext : s1.base + s1.offset = p + max r.1 1 := by
          obtain ⟨_, h2, h3, _⟩ := hb
          omega
        have hone : 1 ≤ max r.1 1 := le_max_right _ _
        refine ⟨?_, ?_, ?_, ?_⟩
        · intro q hq
          simp only [monoBlocks, List.zipWith_cons_cons, List.mem_cons] at hq
          rcases hq with hq | hq
          · subst hq; exact hple
          · have := ihr.1 q hq
            omega
        · intro q hq
          simp only [List.mem_cons] at hq
          rcases hq with hq | hq
          · subst hq; exact hple
          · have := ihr.2.1 q hq
            omega
        · simp only [monoBlocks, List.zipWith_cons_cons, List.pairwise_cons]
          refine ⟨?_, ihr.2.2.1⟩
          intro c hc
          have := ihr.1 c hc
          show p + max r.1 1 ≤ c.1
          omega
        · simp only [List.pairwise_cons]
          refine ⟨?_, ihr.2.2.2⟩
          intro q hq
          have := ihr.2.1 q hq
          omega

/-- C8.  Monotonic strategy: every successful run hands out pairwise
disjoint blocks at strictly increasing addresses; zero-size requests are
clamped to one byte, so they too consume space and get distinct addresses.
Disjointness of block `b` from every later block `c` is `b.1 + b.2 ≤ c.1`
where `b.2 = max n 1` is the clamped size. -/
theorem monotonic_blocks_disjoint (base size : Nat) (reqs : List (Nat × Nat))
    (ps : List Nat) (s' : Monotonic)
    (hpos : ∀ r ∈ reqs, 0 < r.2)
    (h : Monotonic.allocList (Monotonic.init base size) reqs = some (ps, s')) :
    (monoBlocks ps reqs).Pairwise (fun b c => b.1 + b.2 ≤ c.1) ∧
    ps.Pairwise (· < ·) :=
  ⟨(Monotonic.allocList_mono hpos h).2.2.1, (Monotonic.allocList_mono hpos h).2.2.2⟩

/-- Witness for C8: two zero-size requests over a 16-byte storage yield
pointers 0 and 1, disjoint one-byte blocks. -/
theorem monotonic_blocks_disjoint_witness :
    ((∀ r ∈ ([(0, 1), (0, 1)] : List (Nat × Nat)), 0 < r.2) ∧
      Monotonic.allocList (Monotonic.init 0 16) [(0, 1), (0, 1)] =
        some ([0, 1], ⟨0, 16, 2⟩)) ∧
    ((monoBlocks [0, 1] [(0, 1), (0, 1)]).Pairwise (fun b c => b.1 + b.2 ≤ c.1) ∧
      ([0, 1] : List Nat).Pairwise (· < ·)) :=
  ⟨⟨by decide, by decide⟩,
    monotonic_blocks_disjoint 0 16 [(0, 1), (0, 1)] [0, 1] ⟨0, 16, 2⟩
      (by decide) (by decide)⟩

/-- C9.  Monotonic strategy: after `reset()` the offset is 0 and the next
`allocate(n, alignment)` returns exactly what the very first `allocate`
with the same arguments returns on a freshly constructed allocator over the
same storage. -/
theorem monotonic_reset_replays_first_allocation (s : Monotonic) (n align : Nat) :
    s.reset.offset = 0 ∧
    (s.reset.allocate n align).map Prod.fst =
      ((Monotonic.init s.base s.size).allocate n align).map Prod.fst :=
  ⟨rfl, rfl⟩

/-! ## Stack allocation strategy

State of `Allocator::AllocationStrategy::Stack`.  The headers live inside
the storage; since each header stores a pointer to the previous header and
a freed flag, and `m_topHeader` points to the most recent one, the chain is
represented as a list of `(offset, freed)` pairs, topmost header first.
`sizeof(Header) = alignof(Header) = 8` on the reference platform. -/

structure Stack where
  base : Nat
  size : Nat
  headers : List (Nat × Bool)
  fmo : Nat
  deriving DecidableEq, Repr

/-- A freshly constructed `Stack`: `m_topHeader = nullptr`,
`m_freeMemoryOffset = 0`. -/
def Stack.init (base size : Nat) : Stack := ⟨base, size, [], 0⟩

/-- `Stack::getFreeMemoryOffset()`. -/
def Stack.getFreeMemoryOffset (s : Stack) : Nat := s.fmo

/-- `Stack::getFreeMemory()`. -/
def Stack.getFreeMemory (s : Stack) : Nat := s.size - s.getFreeMemoryOffset

/-- `m_topHeader`: the head of the header chain, `none` for `nullptr`. -/
def Stack.topHeader (s : Stack) : Option (Nat × Bool) := s.headers.head?

/-- `Stack::allocate(n, alignment)`: fail when less than a header's room is
left; otherwise align `storage + offset + sizeof(Header)` to
`max(alignment, alignof(Header))`, fail when the aligned block overruns the
storage, else plant a header right before the returned block, push it as
the new top and advance the free-memory offset past the block. -/
def Stack.allocate (s : Stack) (n align : Nat) : Option (Nat × Stack) :=
  let free_space := s.getFreeMemory
  if free_space < 8 then none
  else
    let fs := free_space - 8
    let ptr := s.base + s.getFreeMemoryOffset + 8
    let aligned := alignUp ptr (max align 8)
    if aligned + n ≤ ptr + fs then
      some (aligned, { s with headers := (aligned - 8 - s.base, false) :: s.headers,
                              fmo := aligned - s.base + n })
    else
      none

/-- `Header::markFree` on the header at offset `off` (shared by `Stack`
and `Ring`): set the freed bit of the stored header at that offset. -/
def markHeader (off : Nat) (hs : List (Nat × Bool)) : List (Nat × Bool) :=
  hs.map (fun e => if e.1 = off then (e.1, true) else e)

/-- The loop of `Stack::deallocate`: pop freed headers off the top, moving
the free-memory offset to each popped header's start. -/
def Stack.popFreed : List (Nat × Bool) → Nat → List (Nat × Bool) × Nat
  | [], fmo => ([], fmo)
  | (o, true) :: rest, _ => Stack.popFreed rest o
  | (o, false) :: rest, fmo => ((o, false) :: rest, fmo)

/-- `Stack::deallocate(p, n)`: mark the header `sizeof(Header)` bytes below
`p` as freed, then run the reclamation loop.  The size argument is only
consumed by the debug policy. -/
def Stack.deallocate (s : Stack) (p _n : Nat) : Stack :=
  let hs := markHeader (p - 8 - s.base) s.headers
  let r := Stack.popFreed hs s.fmo
  { s with headers := r.1, fmo := r.2 }

/-- Run a list of `(n, alignment)` requests through `Stack::allocate`. -/
def Stack.allocList : Stack → List (Nat × Nat) → Option (List Nat × Stack)
  | s, [] => some ([], s)
  | s, r :: rest =>
    match s.allocate r.1 r.2 with
    | none => none
    | some (p, s') =>
      match Stack.allocList s' rest with
      | none => none
      | some (ps, s'') => some (p :: ps, s'')

/-- Deallocate the listed pointers in order. -/
def Stack.deallocSeq : Stack → List Nat → Stack
  | s, [] => s
  | s, p :: rest => Stack.deallocSeq (s.deallocate p 0) rest

/-- Header offsets with their freed flags, flagged by membership in the set
`D` of blocks that have been deallocated so far. -/
def flagged (D : List Nat) (os : List Nat) : List (Nat × Bool) :=
  os.map (fun o => (o, decide (o ∈ D)))

/-- Last element of a list, with a default for the empty list. -/
def lastD : List Nat → Nat → Nat
  | [], d => d
  | a :: l, _ => lastD l a

theorem lastD_append (l₁ l₂ : List Nat) (d : Nat) :
    lastD (l₁ ++ l₂) d = lastD l₂ (lastD l₁ d) := by
  induction l₁ generalizing d with
  | nil => rfl
  | cons a t ih =>
    simp only [List.cons_append, lastD]
    exact ih a

theorem lastD_reverse (l : List Nat) (d : Nat) : lastD l.reverse d = l.headD d := by
  cases l with
  | nil => rfl
  | cons a t => rw [List.reverse_cons, lastD_append]; rfl

theorem markHeader_flagged (o : Nat) (D os : List Nat) :
    markHeader o (flagged D os) = flagged (o :: D) os := by
  induction os with
  | nil => rfl
  | cons a t ih =>
    simp only [flagged, List.map_cons, markHeader] at ih ⊢
    by_cases hao : a = o
    · subst hao
      simp [ih, List.mem_cons]
    · simp [hao, ih, List.mem_cons]

theorem popFreed_flagged (D os : List Nat) (fmo : Nat) :
    Stack.popFreed (flagged D os) fmo =
      (flagged D (os.dropWhile (fun o => decide (o ∈ D))),
       lastD (os.takeWhile (fun o => decide (o ∈ D))) fmo) := by
  induction os generalizing fmo with
  | nil => rfl
  | cons a t ih =>
    by_cases ha : a ∈ D
    · simp only [flagged, List.map_cons, List.dropWhile_cons, List.takeWhile_cons,
        ha, decide_True, if_true, Stack.popFreed, lastD]
      exact ih a
    · simp [flagged, List.dropWhile_cons, List.takeWhile_cons, ha, Stack.popFreed, lastD]

theorem dropWhile_mono_dropWhile {p q : Nat → Bool}
    (hpq : ∀ x, q x = true → p x = true) :
    ∀ l : List Nat, (l.dropWhile q).dropWhile p = l.dropWhile p := by
  intro l
  induction l with
  | nil => rfl
  | cons a t ih =>
    by_cases hq : q a = true
    · have hp := hpq a hq
      simp [List.dropWhile_cons, hq, hp, ih]
    · simp [List.dropWhile_cons, hq]

theorem takeWhile_mono_split {p q : Nat → Bool}
    (hpq : ∀ x, q x = true → p x = true) :
    ∀ l : List Nat, l.takeWhile p = l.takeWhile q ++ (l.dropWhile q).takeWhile p := by
  intro l
  induction l with
  | nil => rfl
  | cons a t ih =>
    by_cases hq : q a = true
    · have hp := hpq a hq
      simp [List.takeWhile_cons, List.dropWhile_cons, hq, hp, ih]
    · simp [List.takeWhile_cons, List.dropWhile_cons, hq]

theorem Stack.deallocate_flagged (base size fmo₀ : Nat) (D os : List Nat) (p : Nat) :
    Stack.deallocate
      ⟨base, size, flagged D (os.dropWhile (fun o => decide (o ∈ D))),
        lastD (os.takeWhile (fun o => decide (o ∈ D))) fmo₀⟩ (base + p + 8) 0 =
    ⟨base, size, flagged (p :: D) (os.dropWhile (fun o => decide (o ∈ p :: D))),
      lastD (os.takeWhile (fun o => decide (o ∈ p :: D))) fmo₀⟩ := by
  have hoff : base + p + 8 - 8 - base = p := by omega
  have hmono : ∀ x, decide (x ∈ D) = true → decide (x ∈ p :: D) = true := by
    intro x hx
    simp only [decide_eq_true_eq] at hx ⊢
    exact List.mem_cons_of_mem _ hx
  have h1 : ((os.dropWhile (fun o => decide (o ∈ D))).dropWhile
      (fun o => decide (o ∈ p :: D))) = os.dropWhile (fun o => decide (o ∈ p :: D)) :=
    dropWhile_mono_dropWhile hmono os
  have h2 : lastD ((os.dropWhile (fun o => decide (o ∈ D))).takeWhile
        (fun o => decide (o ∈ p :: D)))
        (lastD (os.takeWhile (fun o => decide (o ∈ D))) fmo₀) =
      lastD (os.takeWhile (fun o => decide (o ∈ p :: D))) fmo₀ := by
    rw [takeWhile_mono_split hmono os, lastD_append]
  unfold Stack.deallocate
  simp only [hoff, markHeader_flagged, popFreed_flagged, h1, h2]

theorem Stack.deallocSeq_flagged (base size fmo₀ : Nat) (os : List Nat) :
    ∀ (P D : List Nat),
    Stack.deallocSeq
      ⟨base, size, flagged D (os.dropWhile (fun o => decide (o ∈ D))),
        lastD (os.takeWhile (fun o => decide (o ∈ D))) fmo₀⟩
      (P.map (fun o => base + o + 8)) =
    ⟨base, size, flagged (P.reverse ++ D) (os.dropWhile (fun o => decide (o ∈ P.reverse ++ D))),
      lastD (os.takeWhile (fun o => decide (o ∈ P.reverse ++ D))) fmo₀⟩ := by
  intro P
  induction P with
  | nil => intro D; simp [Stack.deallocSeq]
  | cons p Pt ih =>
    intro D
    simp only [List.map_cons, Stack.deallocSeq]
    rw [Stack.deallocate_flagged]
    have hl : (p :: Pt).reverse ++ D = Pt.reverse ++ (p :: D) := by simp
    rw [hl]
    exact ih (p :: D)

theorem Stack.allocate_shape {s : Stack} {n align p : Nat} {s' : Stack}
    (h : s.allocate n align = some (p, s')) :
    s'.base = s.base ∧ s'.size = s.size ∧
    s'.headers = (p - 8 - s.base, false) :: s.headers ∧ s.base + 8 ≤ p := by
  unfold Stack.allocate at h
  simp only [Stack.getFreeMemory, Stack.getFreeMemoryOffset] at h
  split at h
  · exact Option.noConfusion h
  · split at h
    · simp only [Option.some.injEq, Prod.mk.injEq] at h
      obtain ⟨hp, hs⟩ := h
      subst hp
      subst hs
      have hpos : 0 < max align 8 := lt_of_lt_of_le (by norm_num) (le_max_right align 8)
      have hle : s.base + s.fmo + 8 ≤ alignUp (s.base + s.fmo + 8) (max align 8) :=
        le_alignUp _ hpos
      exact ⟨rfl, rfl, rfl, by omega⟩
    · exact Option.noConfusion h

theorem Stack.allocList_shape {reqs : List (Nat × Nat)} :
    ∀ {s : Stack} {ps : List Nat} {s' : Stack},
    Stack.allocList s reqs = some (ps, s') →
    s'.base = s.base ∧ s'.size = s.size ∧ s'.fmo = lastD [] s'.fmo ∧
    s'.headers = (ps.map (fun p => (p - 8 - s.base, false))).reverse ++ s.headers ∧
    ∀ p ∈ ps, s.base + 8 ≤ p := by
  induction reqs with
  | nil =>
    intro s ps s' h
    simp only [Stack.allocList, Option.some.injEq, Prod.mk.injEq] at h
    obtain ⟨h1, h2⟩ := h
    subst h1
    subst h2
    simp [lastD]
  | cons r rest ih =>
    intro s ps s' h
    cases halloc : s.allocate r.1 r.2 with
    | none =>
      simp only [Stack.allocList, halloc] at h
      exact Option.noConfusion h
    | some v =>
      obtain ⟨p, s1⟩ := v
      cases hrest : Stack.allocList s1 rest with
      | none =>
        simp only [Stack.allocList, halloc, hrest] at h
        exact Option.noConfusion h
      | some w =>
        obtain ⟨ps1, s2⟩ := w
        simp only [Stack.allocList, halloc, hrest, Option.some.injEq,
          Prod.mk.injEq] at h
        obtain ⟨hps, hs2⟩ := h
        subst hps
        subst hs2
        have hsh := Stack.allocate_shape halloc
        have ihr := ih hrest
        obtain ⟨hb, hsz, _, hhd, hge⟩ := ihr
        refine ⟨by rw [hb, hsh.1], by rw [hsz, hsh.2.1], by simp [lastD], ?_, ?_⟩
        · rw [hhd, hsh.2.2.1, hsh.1]
          simp [List.append_assoc]
        · intro q hq
          rcases List.mem_cons.mp hq with hq | hq
          · subst hq; exact hsh.2.2.2
          · have := hge q hq
            rw [hsh.1] at this
            exact this

theorem flagged_nilD (os : List Nat) :
    flagged [] os = os.map (fun o => (o, false)) := by
  simp [flagged]

theorem dropWhile_nilMem (os : List Nat) :
    os.dropWhile (fun o => decide (o ∈ ([] : List Nat))) = os := by
  cases os with
  | nil => rfl
  | cons a t => simp [List.dropWhile_cons]

theorem takeWhile_nilMem (os : List Nat) :
    os.takeWhile (fun o => decide (o ∈ ([] : List Nat))) = [] := by
  cases os with
  | nil => rfl
  | cons a t => simp [List.takeWhile_cons]

theorem dropWhile_eq_nil_of_all {p : Nat → Bool} :
    ∀ {l : List Nat}, (∀ x ∈ l, p x = true) → l.dropWhile p = [] := by
  intro l
  induction l with
  | nil => intro _; rfl
  | cons a t ih =>
    intro hall
    have ha := hall a (by simp)
    simp [List.dropWhile_cons, ha, ih fun x hx => hall x (by simp [hx])]

theorem takeWhile_eq_self_of_all {p : Nat → Bool} :
    ∀ {l : List Nat}, (∀ x ∈ l, p x = true) → l.takeWhile p = l := by
  intro l
  induction l with
  | nil => intro _; rfl
  | cons a t ih =>
    intro hall
    have ha := hall a (by simp)
    simp [List.takeWhile_cons, ha, ih fun x hx => hall x (by simp [hx])]

/-- C1 (amended).  Stack strategy: for every sequence of successful
allocations followed by deallocations of all blocks, in any order, the top
header is null again and `getFreeMemory()` returns to `size` minus the
offset of the very first block's header.  That equals the pre-allocation
value exactly when no padding was inserted before the first block (first
header at offset 0); padding before the first block is never reclaimed. -/
theorem stack_free_all_blocks (base size : Nat) (reqs : List (Nat × Nat))
    (ps qs : List Nat) (s₁ : Stack)
    (halloc : Stack.allocList (Stack.init base size) reqs = some (ps, s₁))
    (hne : ps ≠ [])
    (hperm : qs.Perm ps) :
    (Stack.deallocSeq s₁ qs).topHeader = none ∧
    (Stack.deallocSeq s₁ qs).headers = [] ∧
    (Stack.deallocSeq s₁ qs).getFreeMemory = size - (ps.headD 0 - 8 - base) ∧
    (ps.headD 0 - 8 - base = 0 →
      (Stack.deallocSeq s₁ qs).getFreeMemory = (Stack.init base size).getFreeMemory) := by
  obtain ⟨b1, z1, hd1, fm1⟩ := s₁
  obtain ⟨hb, hsz, _, hhd, hge⟩ := Stack.allocList_shape halloc
  simp only [Stack.init] at hb hsz hhd hge
  have hb' : base = b1 := hb.symm
  subst hb'
  have hsz' : size = z1 := hsz.symm
  subst hsz'
  rw [List.append_nil] at hhd
  subst hhd
  have hq8 : ∀ p ∈ qs, base + 8 ≤ p := fun p hp => hge p (hperm.mem_iff.mp hp)
  have hqs : (qs.map (fun p => p - 8 - base)).map (fun o => base + o + 8) = qs := by
    rw [List.map_map]
    have hid : ∀ p ∈ qs, ((fun o => base + o + 8) ∘ fun p => p - 8 - base) p = id p := by
      intro p hp
      have := hq8 p hp
      simp only [Function.comp, id]
      omega
    rw [List.map_congr_left hid, List.map_id]
  have hstate : Stack.mk base size ((ps.map (fun p => (p - 8 - base, false))).reverse) fm1 =
      ⟨base, size,
        flagged []
          (((ps.map (fun p => p - 8 - base)).reverse).dropWhile
            (fun o => decide (o ∈ ([] : List Nat)))),
        lastD
          (((ps.map (fun p => p - 8 - base)).reverse).takeWhile
            (fun o => decide (o ∈ ([] : List Nat)))) fm1⟩ := by
    rw [dropWhile_nilMem, takeWhile_nilMem, flagged_nilD, List.map_reverse, List.map_map]
    rfl
  rw [hstate, ← hqs, Stack.deallocSeq_flagged]
  have hall : ∀ o ∈ (ps.map (fun p => p - 8 - base)).reverse,
      (fun o => decide (o ∈ (qs.map (fun p => p - 8 - base)).reverse ++ ([] : List Nat))) o
        = true := by
    intro o ho
    simp only [List.mem_reverse] at ho
    simp only [List.append_nil, List.mem_reverse, decide_eq_true_eq]
    exact ((hperm.map (fun p => p - 8 - base)).mem_iff).mpr ho
  rw [dropWhile_eq_nil_of_all hall, takeWhile_eq_self_of_all hall]
  cases ps with
  | nil => exact absurd rfl hne
  | cons p pt =>
    rw [lastD_reverse]
    refine ⟨rfl, rfl, ?_, ?_⟩
    · simp [Stack.getFreeMemory, Stack.getFreeMemoryOffset]
    · intro h0
      simp only [List.headD_cons] at h0
      simp only [Stack.getFreeMemory, Stack.getFreeMemoryOffset, Stack.init,
        List.map_cons, List.headD_cons]
      omega

/-- Counterexample to C1 as literally stated: over a 16-byte-aligned
storage (`base = 16`) of 64 bytes, a single `allocate(1, 16)` inserts
8 padding bytes before the first header; after deallocating the block,
`getFreeMemory()` is 56, not the pre-allocation value 64. -/
theorem stack_free_all_blocks_cex :
    Stack.allocList (Stack.init 16 64) [(1, 16)] =
      some ([32], ⟨16, 64, [(8, false)], 17⟩) ∧
    Stack.deallocSeq ⟨16, 64, [(8, false)], 17⟩ [32] = ⟨16, 64, [], 8⟩ ∧
    Stack.getFreeMemory ⟨16, 64, [], 8⟩ = 56 ∧
    Stack.getFreeMemory (Stack.init 16 64) = 64 ∧
    Stack.getFreeMemory ⟨16, 64, [], 8⟩ ≠ Stack.getFreeMemory (Stack.init 16 64) := by
  refine ⟨by decide, by decide, by decide, by decide, by decide⟩

/-- Witness for the amended C1: two 8-byte blocks over 64 bytes at an
8-aligned base, freed in LIFO-breaking order; the first header sits at
offset 0 and the free memory returns to the full 64 bytes. -/
theorem stack_free_all_blocks_witness :
    (Stack.allocList (Stack.init 0 64) [(8, 1), (8, 1)] =
        some ([8, 24], ⟨0, 64, [(16, false), (0, false)], 32⟩) ∧
      ([8, 24] : List Nat) ≠ [] ∧ ([8, 24] : List Nat).Perm [8, 24]) ∧
    ((Stack.deallocSeq ⟨0, 64, [(16, false), (0, false)], 32⟩ [8, 24]).topHeader = none ∧
      (Stack.deallocSeq ⟨0, 64, [(16, false), (0, false)], 32⟩ [8, 24]).headers = [] ∧
      (Stack.deallocSeq ⟨0, 64, [(16, false), (0, false)], 32⟩ [8, 24]).getFreeMemory =
        64 - (([8, 24] : List Nat).headD 0 - 8 - 0) ∧
      (([8, 24] : List Nat).headD 0 - 8 - 0 = 0 →
        (Stack.deallocSeq ⟨0, 64, [(16, false), (0, false)], 32⟩ [8, 24]).getFreeMemory =
          (Stack.init 0 64).getFreeMemory)) :=
  ⟨⟨by decide, by decide, by decide⟩,
    stack_free_all_blocks 0 64 [(8, 1), (8, 1)] [8, 24] [8, 24]
      ⟨0, 64, [(16, false), (0, false)], 32⟩ (by decide) (by decide) (by decide)⟩

/-! ## Ring allocation strategy

State of `Allocator::AllocationStrategy::Ring`.  The headers form a
doubly-linked chain; since allocation pushes at the top and both walks of
`deallocate` pop at the ends, the chain is a list of `(offset, freed)`
pairs, topmost header first (`m_topHeader` the head, `m_bottomHeader` the
last element).  `sizeof(Header) = 16` (two `std::uintptr_t`),
`alignof(Header) = 8`.  A `none` bottom models `m_bottomHeader == nullptr`:
the C++ pointer comparisons against `nullptr` in
`getFreeMemoryContiguous` and `isWrappedAround` are then always
"bottom is to the left", handled by the `none` branches below. -/

structure RingAlloc where
  base : Nat
  size : Nat
  headers : List (Nat × Bool)
  fmo : Nat
  deriving DecidableEq, Repr

/-- A freshly constructed `Ring`. -/
def RingAlloc.init (base size : Nat) : RingAlloc := ⟨base, size, [], 0⟩

/-- `Ring::getFreeMemoryOffset()`. -/
def RingAlloc.getFreeMemoryOffset (s : RingAlloc) : Nat := s.fmo

/-- `m_topHeader`, `none` for `nullptr`. -/
def RingAlloc.topHeader (s : RingAlloc) : Option (Nat × Bool) := s.headers.head?

/-- `m_bottomHeader`, `none` for `nullptr`. -/
def RingAlloc.bottomHeader (s : RingAlloc) : Option (Nat × Bool) := s.headers.getLast?

/-- The lambda `getFreeMemoryContiguous` in `Ring::allocate`: free space
from `offs` to the end of storage (linear case, bottom header to the left
of `offs` or null), or from `offs` to the bottom header (wrapped case). -/
def RingAlloc.gfc (s : RingAlloc) (offs : Nat) : Nat :=
  match s.bottomHeader with
  | none => s.size - offs
  | some e => if e.1 < offs then s.size - offs else e.1 - offs

/-- `Ring::isWrappedAround()`: the free-memory offset is at or before the
bottom header's address (false when there is no bottom header, since
`m_storage.ptr` is nonnull). -/
def RingAlloc.isWrappedAround (s : RingAlloc) : Bool :=
  match s.bottomHeader with
  | none => false
  | some e => s.fmo ≤ e.1

/-- `Ring::allocate(n, alignment)`: try to place the block (preceded by a
16-byte header, aligned to `max(alignment, alignof(Header))`) at the
free-memory offset; when that fails and the ring is not yet wrapped, try
again at the very start of the storage; on success push a new top header
and advance the free-memory offset past the block. -/
def RingAlloc.allocate (s : RingAlloc) (n align : Nat) : Option (Nat × RingAlloc) :=
  let success := fun (ret : Nat) =>
    some (ret, { s with headers := (ret - 16 - s.base, false) :: s.headers,
                        fmo := ret - s.base + n })
  let free_space := s.gfc s.fmo
  let oom := free_space < 16
  let fs1 := if oom then free_space else free_space - 16
  let ptr := s.base + s.getFreeMemoryOffset + 16
  let aligned := alignUp ptr (max align 8)
  if ¬oom ∧ aligned + n ≤ ptr + fs1 then
    success aligned
  else if s.isWrappedAround then none
  else
    let fs2 := s.gfc 0
    if fs2 < 16 then none
    else
      let ptr2 := s.base + 16
      let aligned2 := alignUp ptr2 (max align 8)
      if aligned2 + n ≤ ptr2 + (fs2 - 16) then success aligned2 else none

/-- The first loop of `Ring::deallocate`: pop freed headers off the top;
for each popped header the free-memory offset retracts to its start, and
when the chain empties the bottom pointer is nulled and the offset reset
to 0. -/
def RingAlloc.topLoop : List (Nat × Bool) → Nat → List (Nat × Bool) × Nat
  | [], fmo => ([], fmo)
  | (o, true) :: rest, _fmo =>
    match rest with
    | [] => ([], 0)
    | _ :: _ => RingAlloc.topLoop rest o
  | (o, false) :: rest, fmo => ((o, false) :: rest, fmo)

/-- The second loop of `Ring::deallocate`: pop freed headers off the
bottom (the end of the list); the free-memory offset is not touched. -/
def RingAlloc.botLoop (l : List (Nat × Bool)) : List (Nat × Bool) :=
  (l.reverse.dropWhile (fun e => e.2)).reverse

/-- `Ring::deallocate(p, n)`: mark the header 16 bytes below `p` as freed,
then run both reclamation walks. -/
def RingAlloc.deallocate (s : RingAlloc) (p _n : Nat) : RingAlloc :=
  let hs := markHeader (p - 16 - s.base) s.headers
  let r := RingAlloc.topLoop hs s.fmo
  { s with headers := RingAlloc.botLoop r.1, fmo := r.2 }

theorem markHeader_all_true {o : Nat} :
    ∀ {l : List (Nat × Bool)}, (∀ e ∈ l, e.2 = true ∨ e.1 = o) →
    ∀ e ∈ markHeader o l, e.2 = true := by
  intro l
  induction l with
  | nil => intro _ e he; exact absurd he (List.not_mem_nil e)
  | cons a t ih =>
    intro hall e he
    simp only [markHeader, List.map_cons, List.mem_cons] at he
    rcases he with he | he
    · rcases hall a (by simp) with h | h
      · subst he
        split
        · rfl
        · exact h
      · subst he
        simp [h]
    · exact ih (fun x hx => hall x (by simp [hx])) e he

theorem RingAlloc.topLoop_all_true :
    ∀ {l : List (Nat × Bool)} {fmo : Nat}, l ≠ [] → (∀ e ∈ l, e.2 = true) →
    RingAlloc.topLoop l fmo = ([], 0) := by
  intro l
  induction l with
  | nil => intro fmo h; exact absurd rfl h
  | cons a t ih =>
    intro fmo _ hall
    obtain ⟨o, b⟩ := a
    have hb : b = true := hall (o, b) (by simp)
    subst hb
    cases t with
    | nil => rfl
    | cons c u =>
      simp only [RingAlloc.topLoop]
      exact ih (by simp) (fun e he => hall e (by simp [he]))

/-- C7.  Ring strategy: the `deallocate` call that frees the last live
allocation (every other header in the chain is already marked freed)
empties the chain: both `m_topHeader` and `m_bottomHeader` become null and
`getFreeMemoryOffset()` returns 0 — regardless of the order in which the
earlier blocks were freed, i.e. for every split of the chain around the
one live header. -/
theorem ring_last_free_resets (s : RingAlloc) (o n : Nat) (hs₁ hs₂ : List (Nat × Bool))
    (hsplit : s.headers = hs₁ ++ (o, false) :: hs₂)
    (h₁ : ∀ e ∈ hs₁, e.2 = true) (h₂ : ∀ e ∈ hs₂, e.2 = true) :
    (s.deallocate (s.base + o + 16) n).topHeader = none ∧
    (s.deallocate (s.base + o + 16) n).bottomHeader = none ∧
    (s.deallocate (s.base + o + 16) n).getFreeMemoryOffset = 0 := by
  have hoff : s.base + o + 16 - 16 - s.base = o := by omega
  have hall : ∀ e ∈ markHeader o s.headers, e.2 = true := by
    refine markHeader_all_true ?_
    intro e he
    rw [hsplit] at he
    rcases List.mem_append.mp he with he | he
    · exact Or.inl (h₁ e he)
    · rcases List.mem_cons.mp he with he | he
      · subst he; exact Or.inr rfl
      · exact Or.inl (h₂ e he)
  have hne : markHeader o s.headers ≠ [] := by
    rw [hsplit]
    simp [markHeader]
  unfold RingAlloc.deallocate
  simp only [hoff, RingAlloc.topLoop_all_true hne hall, RingAlloc.botLoop]
  exact ⟨rfl, rfl, rfl⟩

/-- Witness for C7: a two-block chain whose bottom block is already freed;
freeing the top block empties the ring. -/
theorem ring_last_free_resets_witness :
    ((⟨0, 64, [(16, false), (0, true)], 32⟩ : RingAlloc).headers =
        [] ++ (16, false) :: [(0, true)] ∧
      (∀ e ∈ ([] : List (Nat × Bool)), e.2 = true) ∧
      (∀ e ∈ [((0 : Nat), true)], e.2 = true)) ∧
    ((RingAlloc.deallocate ⟨0, 64, [(16, false), (0, true)], 32⟩ (0 + 16 + 16) 8).topHeader
        = none ∧
      (RingAlloc.deallocate ⟨0, 64, [(16, false), (0, true)], 32⟩ (0 + 16 + 16) 8).bottomHeader
        = none ∧
      (RingAlloc.deallocate ⟨0, 64, [(16, false), (0, true)], 32⟩ (0 + 16 + 16) 8).getFreeMemoryOffset
        = 0) :=
  ⟨⟨by decide, by decide, by decide⟩,
    ring_last_free_resets ⟨0, 64, [(16, false), (0, true)], 32⟩ 16 8
      [] [(0, true)] (by decide) (by decide) (by decide)⟩

/-- C3.  Ring strategy, concrete wrap-around scenario over a 128-byte
storage (base address 16, 8-aligned): allocate 64 bytes (p1 = 32) then 32
bytes (p2 = 112); free p1; a further 64-byte allocation succeeds by
wrapping around and returns exactly p1's old address 32;
`isWrappedAround()` is true from then on, and becomes false again once p2
is also freed. -/
theorem ring_wrap_scenario :
    RingAlloc.allocate (RingAlloc.init 16 128) 64 1 =
      some (32, ⟨16, 128, [(0, false)], 80⟩) ∧
    RingAlloc.allocate ⟨16, 128, [(0, false)], 80⟩ 32 1 =
      some (112, ⟨16, 128, [(80, false), (0, false)], 128⟩) ∧
    RingAlloc.isWrappedAround ⟨16, 128, [(80, false), (0, false)], 128⟩ = false ∧
    RingAlloc.deallocate ⟨16, 128, [(80, false), (0, false)], 128⟩ 32 64 =
      ⟨16, 128, [(80, false)], 128⟩ ∧
    RingAlloc.isWrappedAround ⟨16, 128, [(80, false)], 128⟩ = false ∧
    RingAlloc.allocate ⟨16, 128, [(80, false)], 128⟩ 64 1 =
      some (32, ⟨16, 128, [(0, false), (80, false)], 80⟩) ∧
    RingAlloc.isWrappedAround ⟨16, 128, [(0, false), (80, false)], 80⟩ = true ∧
    RingAlloc.deallocate ⟨16, 128, [(0, false), (80, false)], 80⟩ 112 32 =
      ⟨16, 128, [(0, false)], 80⟩ ∧
    RingAlloc.isWrappedAround ⟨16, 128, [(0, false)], 80⟩ = false := by
  refine ⟨by decide, by decide, by decide, by decide, by decide, by decide,
    by decide, by decide, by decide⟩

/-! ## Pool allocation strategy

State of `Allocator::AllocationStrategy::Pool`.  The singly-linked free
list threaded through the headers is represented as the list of free chunk
indices, `m_firstFree` first.  `base` is the storage start after the
constructor aligned it to `alignof(Header)`; each chunk occupies
`chunkSize + sizeof(Header)` bytes, `sizeof(Header) = 8`. -/

structure Pool where
  base : Nat
  size : Nat
  chunkSize : Nat
  freeList : List Nat
  deriving DecidableEq, Repr

/-- Address of the byte right after chunk `i`'s header (the `header + 1`
pointer that `Pool::allocate` starts from). -/
def Pool.chunkPtr (s : Pool) (i : Nat) : Nat := s.base + i * (s.chunkSize + 8) + 8

/-- A freshly constructed `Pool` (after `writeHeaders`): one header per
whole chunk that fits, linked in ascending address order. -/
def Pool.init (base size chunk_size : Nat) : Pool :=
  ⟨base, size, chunk_size, List.range (size / (chunk_size + 8))⟩

/-- `Pool::calculateStorageSize`. -/
def Pool.calculateStorageSize (chunk_size number_of_chunks : Nat) : Nat :=
  (chunk_size + 8) * number_of_chunks

/-- `Pool::allocate(n, alignment)`: fail if no chunk is free; otherwise
take the first free chunk, align the pointer after its header within the
chunk's `m_chunkSize` bytes, fail if the aligned block does not fit, else
pop the chunk off the free list and mark it occupied.  The first component
is the returned pointer (`none` models the `std::bad_alloc` throw, which
happens before any state is modified). -/
def Pool.allocate (s : Pool) (n align : Nat) : Option Nat × Pool :=
  match s.freeList with
  | [] => (none, s)
  | i :: rest =>
    let ptr := s.chunkPtr i
    let aligned := alignUp ptr align
    if aligned + n ≤ ptr + s.chunkSize then
      (some aligned, { s with freeList := rest })
    else
      (none, s)

/-- `Pool::deallocate(p, n)`: recover the chunk index by integer division
and push it on the front of the free list. -/
def Pool.deallocate (s : Pool) (p _n : Nat) : Pool :=
  let chunk_index := (p - s.base) / (s.chunkSize + 8)
  { s with freeList := chunk_index :: s.freeList }

/-- `Pool::getNumberOfFreeChunks()`. -/
def Pool.getNumberOfFreeChunks (s : Pool) : Nat := s.freeList.length

/-- Run a list of `(n, alignment)` requests through `Pool::allocate`. -/
def Pool.allocList : Pool → List (Nat × Nat) → Option (List Nat × Pool)
  | s, [] => some ([], s)
  | s, r :: rest =>
    match Pool.allocate s r.1 r.2 with
    | (none, _) => none
    | (some p, s') =>
      match Pool.allocList s' rest with
      | none => none
      | some (ps, s'') => some (p :: ps, s'')

theorem Pool.allocList_range (cs : Nat) (hcs : 8 ∣ cs + 8) :
    ∀ (reqs : List (Nat × Nat)) (i sz : Nat),
    (∀ r ∈ reqs, r.1 ≤ cs ∧ 0 < r.2 ∧ r.2 ∣ 8) →
    Pool.allocList ⟨0, sz, cs, List.range' i reqs.length⟩ reqs =
      some ((List.range' i reqs.length).map (fun j => j * (cs + 8) + 8),
        ⟨0, sz, cs, []⟩) := by
  intro reqs
  induction reqs with
  | nil => intro i sz _; rfl
  | cons r rest ih =>
    intro i sz hfit
    obtain ⟨hn, ha, had⟩ := hfit r (by simp)
    have h8 : (8 : Nat) ∣ (0 : Nat) + i * (cs + 8) + 8 := by
      obtain ⟨k, hk⟩ := hcs
      exact ⟨i * k + 1, by rw [hk]; ring⟩
    have hdvd : r.2 ∣ (0 : Nat) + i * (cs + 8) + 8 := dvd_trans had h8
    have hup : alignUp ((0 : Nat) + i * (cs + 8) + 8) r.2 = 0 + i * (cs + 8) + 8 :=
      alignUp_eq_self ha hdvd
    have hstep : Pool.allocate ⟨0, sz, cs, List.range' i (r :: rest).length⟩ r.1 r.2 =
        (some (i * (cs + 8) + 8), ⟨0, sz, cs, List.range' (i + 1) rest.length⟩) := by
      simp only [List.length_cons, List.range'_succ, Pool.allocate, Pool.chunkPtr, hup]
      rw [if_pos (by omega)]
      simp
    simp only [Pool.allocList, hstep, ih (i + 1) sz (fun q hq => hfit q (by simp [hq]))]
    simp [List.length_cons, List.range'_succ]

/-- C4.  Pool strategy over storage holding exactly 10 chunks of 1024
bytes (`calculateStorageSize(1024, 10) = 10320`, base 0): any 10 requests
that fit a chunk (size at most 1024, alignment a divisor of 8, i.e. not
stricter than the header's) all succeed and return the ten chunk addresses
in ascending order; an 11th allocation fails with `OutOfMemory`; after
deallocating the 5th returned pointer (4136), the next fitting allocation
returns exactly 4136 — the most recently freed chunk is reused first. -/
theorem pool_ten_chunk_scenario (reqs : List (Nat × Nat)) (m a m2 a2 : Nat)
    (hlen : reqs.length = 10)
    (hfit : ∀ r ∈ reqs, r.1 ≤ 1024 ∧ 0 < r.2 ∧ r.2 ∣ 8)
    (hm2 : m2 ≤ 1024) (ha2 : 0 < a2) (had2 : a2 ∣ 8) :
    Pool.allocList (Pool.init 0 10320 1024) reqs =
      some ([8, 1040, 2072, 3104, 4136, 5168, 6200, 7232, 8264, 9296],
        ⟨0, 10320, 1024, []⟩) ∧
    (Pool.allocate ⟨0, 10320, 1024, []⟩ m a).1 = none ∧
    Pool.deallocate ⟨0, 10320, 1024, []⟩ 4136 0 = ⟨0, 10320, 1024, [4]⟩ ∧
    (Pool.allocate ⟨0, 10320, 1024, [4]⟩ m2 a2).1 = some 4136 := by
  have h := Pool.allocList_range 1024 (by norm_num) reqs 0 10320 hfit
  rw [hlen] at h
  have hinit : Pool.init 0 10320 1024 = ⟨0, 10320, 1024, List.range' 0 10⟩ := by decide
  have hmap : (List.range' 0 10).map (fun j => j * (1024 + 8) + 8) =
      [8, 1040, 2072, 3104, 4136, 5168, 6200, 7232, 8264, 9296] := by decide
  refine ⟨?_, rfl, by decide, ?_⟩
  · rw [hinit, h, hmap]
  · have hdvd : a2 ∣ 4136 := dvd_trans had2 (by norm_num)
    have hup : alignUp ((0 : Nat) + 4 * (1024 + 8) + 8) a2 = 0 + 4 * (1024 + 8) + 8 :=
      alignUp_eq_self ha2 (by norm_num at hdvd ⊢; omega)
    simp only [Pool.allocate, Pool.chunkPtr, hup]
    rw [if_pos (by omega)]

/-- Witness for C4: ten maximal requests `(1024, 8)`. -/
theorem pool_ten_chunk_scenario_witness :
    ((List.replicate 10 ((1024 : Nat), (8 : Nat))).length = 10 ∧
      (∀ r ∈ List.replicate 10 ((1024 : Nat), (8 : Nat)),
        r.1 ≤ 1024 ∧ 0 < r.2 ∧ r.2 ∣ 8) ∧
      (1024 : Nat) ≤ 1024 ∧ (0 : Nat) < 8 ∧ (8 : Nat) ∣ 8) ∧
    (Pool.allocList (Pool.init 0 10320 1024) (List.replicate 10 (1024, 8)) =
        some ([8, 1040, 2072, 3104, 4136, 5168, 6200, 7232, 8264, 9296],
          ⟨0, 10320, 1024, []⟩) ∧
      (Pool.allocate ⟨0, 10320, 1024, []⟩ 1 1).1 = none ∧
      Pool.deallocate ⟨0, 10320, 1024, []⟩ 4136 0 = ⟨0, 10320, 1024, [4]⟩ ∧
      (Pool.allocate ⟨0, 10320, 1024, [4]⟩ 1024 8).1 = some 4136) :=
  ⟨⟨by decide, by decide, by decide, by decide, by decide⟩,
    pool_ten_chunk_scenario (List.replicate 10 (1024, 8)) 1 1 1024 8
      (by decide) (by decide) (by decide) (by decide) (by decide)⟩

/-- C5.  Pool strategy: `allocate(n, alignment)` fails with `OutOfMemory`
iff either no free chunk exists, or `n` bytes at the requested alignment
do not fit inside the chunk that would be handed out (the head of the free
list — the chunk size is fixed, so other free chunks are not tried); and
on such a failure the allocator state, including the free list, is
unchanged (on success only the head of the free list is popped). -/
theorem pool_allocate_fail_iff (s : Pool) (n align : Nat) :
    ((Pool.allocate s n align).1 = none ↔
      s.freeList = [] ∨ ∃ i tl, s.freeList = i :: tl ∧
        ¬(alignUp (s.chunkPtr i) align + n ≤ s.chunkPtr i + s.chunkSize)) ∧
    (Pool.allocate s n align).2 =
      (if (Pool.allocate s n align).1 = none then s
        else { s with freeList := s.freeList.tail }) := by
  cases hfl : s.freeList with
  | nil =>
    simp [Pool.allocate, hfl]
  | cons i tl =>
    by_cases hc : alignUp (s.chunkPtr i) align + n ≤ s.chunkPtr i + s.chunkSize
    · constructor
      · simp only [Pool.allocate, hfl]
        rw [if_pos hc]
        constructor
        · intro hx; exact Option.noConfusion hx
        · rintro (hx | ⟨i2, tl2, heq, hnot⟩)
          · exact List.noConfusion hx
          · injection heq with hi htl
            subst hi
            exact absurd hc hnot
      · simp only [Pool.allocate, hfl]
        rw [if_pos hc]
        rfl
    · constructor
      · simp only [Pool.allocate, hfl]
        rw [if_neg hc]
        constructor
        · intro _
          exact Or.inr ⟨i, tl, rfl, hc⟩
        · intro _
          rfl
      · simp only [Pool.allocate, hfl]
        rw [if_neg hc]
        rfl

/-! ## Concurrent ring pool (`Memory::RingPool_T`)

Single-threaded execution of the lock-free allocator: every
`compare_exchange` succeeds because the expected value was loaded in the
same step.  Offsets into the owned buffer are `Nat`; the 8-byte size field
written at the start of every block (`allocate_block_at`) is modelled by
the function `mem` from block start offsets to the stored size.  Pointers
handed to `free` are `Option Nat` (absolute offset of the byte after the
size field), `none` for `nullptr`.  The unbounded retry loops are given
explicit fuel; every loop iteration either consumes a free-list entry or
terminates, so the fuel used at the call sites is never exhausted in
reachable states, and the claims below only exercise paths that return
within the provided fuel. -/

structure RingPool where
  poolCapacity : Nat
  rightPtr : Nat
  leftPtr : Nat
  paddingPtr : Nat
  freeList : List Nat
  mem : Nat → Nat

/-- A freshly constructed `RingPool_T(poolCapacity)`: both pointers and
the padding pointer 0, empty free list, zero-initialized storage. -/
def RingPool.init (capacity : Nat) : RingPool := ⟨capacity, 0, 0, 0, [], fun _ => 0⟩

/-- `RingPool_T::tryToFreeNextElementInFreeList`: if the free list holds
the element at `leftPtr`, advance `leftPtr` past it (collapsing to 0 when
it reaches the padding boundary), erase it from the list and report
success. -/
def RingPool.tryToFree (mem : Nat → Nat) (freeList : List Nat)
    (leftPtr paddingPtr : Nat) : Option (List Nat × Nat) :=
  if leftPtr ∈ freeList then
    let sz := mem leftPtr
    let l1 := leftPtr + sz
    some (freeList.erase leftPtr, if l1 = paddingPtr then 0 else l1)
  else
    none

/-- The `while(tryToFreeNextElementInFreeList(...))` loop of
`cleanPendingElementsFromFreeList`. -/
def RingPool.cleanLoop : Nat → (Nat → Nat) → List Nat → Nat → Nat → List Nat × Nat
  | 0, _, fl, l, _ => (fl, l)
  | fuel + 1, mem, fl, l, pad =>
    match RingPool.tryToFree mem fl l pad with
    | some (fl', l') => RingPool.cleanLoop fuel mem fl' l' pad
    | none => (fl, l)

/-- `RingPool_T::cleanPendingElementsFromFreeList`: drain the free list as
far as possible; if `leftPtr` moved, store it (clearing `paddingPtr` when
the move wrapped past the boundary) and report `true`. -/
def RingPool.cleanPending (s : RingPool) : Bool × RingPool :=
  let r := RingPool.cleanLoop (s.freeList.length + 1) s.mem s.freeList s.leftPtr s.paddingPtr
  if r.2 ≠ s.leftPtr then
    (true, { s with freeList := r.1, leftPtr := r.2,
                    paddingPtr := if r.2 < s.leftPtr then 0 else s.paddingPtr })
  else
    (false, { s with freeList := r.1 })

/-- `RingPool_T::allocate(requested_size)` with the `ReturnNullptr`
fallback policy, single-threaded (each CAS succeeds): add the 8-byte
header to the size, then: in the non-wrapped layout (`leftPtr ≤ rightPtr`)
allocate at `rightPtr` when the block ends strictly before the capacity,
otherwise attempt to wrap to offset 0 (recording the abandoned tail in
`paddingPtr` via CAS) if the block fits strictly below `leftPtr`; in the
wrapped layout allocate at `rightPtr` when the block ends strictly below
`leftPtr`.  When nothing fits, retry after a successful free-list clean
(`fuel` bounds the retries), else fail with `nullptr`.  A successful
allocation writes the block size at the block start and returns the offset
just past it. -/
def RingPool.allocate : Nat → RingPool → Nat → Option Nat × RingPool
  | 0, s, _ => (none, s)
  | fuel + 1, s, requested =>
    let size := requested + 8
    let right := s.rightPtr
    let left := s.leftPtr
    if left ≤ right then
      if right + size ≥ s.poolCapacity then
        if size ≥ left then
          match RingPool.cleanPending s with
          | (true, s') => RingPool.allocate fuel s' requested
          | (false, s') => (none, s')
        else
          (some (0 + 8),
            { s with rightPtr := size,
                     paddingPtr := if s.paddingPtr = 0 then right else s.paddingPtr,
                     mem := fun x => if x = 0 then size else s.mem x })
      else
        (some (right + 8),
          { s with rightPtr := right + size,
                   mem := fun x => if x = right then size else s.mem x })
    else
      if right + size ≥ left then
        match RingPool.cleanPending s with
        | (true, s') => RingPool.allocate fuel s' requested
        | (false, s') => (none, s')
      else
        (some (right + 8),
          { s with rightPtr := right + size,
                   mem := fun x => if x = right then size else s.mem x })

/-- The `for(;;)` loop in the out-of-order branch of `RingPool_T::free`:
repeatedly drain the free list from `leftPtr`; when that stalls, check
whether the original element has become leftmost and free it too. -/
def RingPool.freeLoop : Nat → (Nat → Nat) → List Nat → Nat → Nat → Nat → Nat → Bool →
    List Nat × Nat × Bool
  | 0, _, fl, l, _, _, _, freed => (fl, l, freed)
  | fuel + 1, mem, fl, l, pad, elemIdx, elemSize, freed =>
    match RingPool.tryToFree mem fl l pad with
    | some (fl', l') => RingPool.freeLoop fuel mem fl' l' pad elemIdx elemSize freed
    | none =>
      if l = elemIdx then
        let l1 := l + elemSize
        RingPool.freeLoop fuel mem fl (if l1 = pad then 0 else l1) pad elemIdx elemSize true
      else
        (fl, l, freed)

/-- `RingPool_T::free(ptr)`: a null pointer is ignored.  Otherwise read
the block size stored 8 bytes below the pointer; if the block starts at
`leftPtr`, advance `leftPtr` by the size on the lock-free fast path
(wrapping both `leftPtr` and `paddingPtr` to 0 when the padding boundary
is reached).  Otherwise take the free-list lock, drain what has become
contiguous, store a moved `leftPtr` (clearing `paddingPtr` on wrap), and
append the block to the pending free list when it could not be freed. -/
def RingPool.free (s : RingPool) (ptr : Option Nat) : RingPool :=
  match ptr with
  | none => s
  | some p =>
    let baseOff := p - 8
    let elemSize := s.mem baseOff
    if baseOff = s.leftPtr then
      let l1 := s.leftPtr + elemSize
      if l1 = s.paddingPtr then
        { s with leftPtr := 0, paddingPtr := 0 }
      else
        { s with leftPtr := l1 }
    else
      let r := RingPool.freeLoop (2 * s.freeList.length + 2) s.mem s.freeList
        s.leftPtr s.paddingPtr baseOff elemSize false
      let s1 :=
        if r.2.1 ≠ s.leftPtr then
          { s with freeList := r.1, leftPtr := r.2.1,
                   paddingPtr := if r.2.1 < s.leftPtr then 0 else s.paddingPtr }
        else
          { s with freeList := r.1 }
      if r.2.2 then s1 else { s1 with freeList := s1.freeList ++ [baseOff] }

/-- C2 (amended).  Concurrent ring pool, non-wrapped state
(`leftPtr ≤ rightPtr`): whenever the block (requested size plus the 8-byte
header) ends strictly before `poolCapacity`, `allocate` reserves it at
offset `rightPtr` — the pointer past the header is returned, `rightPtr`
advances by the block size, and no other state changes (the code sends
`rightPtr + size == poolCapacity` down the wrap-around path, so the bound
must be strict). -/
theorem ringpool_allocate_normal (s : RingPool) (requested fuel : Nat)
    (hfuel : 0 < fuel)
    (hlr : s.leftPtr ≤ s.rightPtr)
    (hfit : s.rightPtr + (requested + 8) < s.poolCapacity) :
    (RingPool.allocate fuel s requested).1 = some (s.rightPtr + 8) ∧
    (RingPool.allocate fuel s requested).2.rightPtr = s.rightPtr + (requested + 8) ∧
    (RingPool.allocate fuel s requested).2.leftPtr = s.leftPtr ∧
    (RingPool.allocate fuel s requested).2.paddingPtr = s.paddingPtr ∧
    (RingPool.allocate fuel s requested).2.freeList = s.freeList ∧
    (RingPool.allocate fuel s requested).2.mem s.rightPtr = requested + 8 := by
  cases fuel with
  | zero => exact absurd hfuel (by omega)
  | succ f =>
    simp only [RingPool.allocate]
    rw [if_pos hlr, if_neg (by omega)]
    refine ⟨rfl, rfl, rfl, rfl, rfl, ?_⟩
    simp

/-- Witness for the amended C2. -/
theorem ringpool_allocate_normal_witness :
    ((0 : Nat) < 1 ∧ (4 : Nat) ≤ 8 ∧ (8 : Nat) + (8 + 8) < 64) ∧
    ((RingPool.allocate 1 ⟨64, 8, 4, 0, [], fun _ => 0⟩ 8).1 = some (8 + 8) ∧
      (RingPool.allocate 1 ⟨64, 8, 4, 0, [], fun _ => 0⟩ 8).2.rightPtr = 8 + (8 + 8) ∧
      (RingPool.allocate 1 ⟨64, 8, 4, 0, [], fun _ => 0⟩ 8).2.leftPtr = 4 ∧
      (RingPool.allocate 1 ⟨64, 8, 4, 0, [], fun _ => 0⟩ 8).2.paddingPtr = 0 ∧
      (RingPool.allocate 1 ⟨64, 8, 4, 0, [], fun _ => 0⟩ 8).2.freeList = [] ∧
      (RingPool.allocate 1 ⟨64, 8, 4, 0, [], fun _ => 0⟩ 8).2.mem 8 = 8 + 8) :=
  ⟨⟨by norm_num, by norm_num, by norm_num⟩,
    ringpool_allocate_normal ⟨64, 8, 4, 0, [], fun _ => 0⟩ 8 1
      (by norm_num) (by norm_num) (by norm_num)⟩

/-- Counterexample to C2 as literally stated: capacity 16, empty pool
(`leftPtr = rightPtr = 0`), `allocate(8)`.  The block size including the
header is 16, so `rightPtr + size = 16 ≤ poolCapacity`, yet the code takes
the `>= m_poolCapacity` wrap-around branch and fails with `nullptr`
instead of reserving at `rightPtr`. -/
theorem ringpool_allocate_boundary_cex :
    (0 : Nat) ≤ 0 ∧ (0 : Nat) + (8 + 8) ≤ 16 ∧
    (RingPool.allocate 1 ⟨16, 0, 0, 0, [], fun _ => 0⟩ 8).1 = none :=
  ⟨le_refl 0, by norm_num, rfl⟩

/-- C6.  Concurrent ring pool, single-threaded: `free` on the block whose
start offset equals `leftPtr` takes the fast path — `leftPtr` advances by
exactly the stored block size (header included), both `leftPtr` and
`paddingPtr` collapse to 0 when the advanced `leftPtr` hits the padding
boundary, and the pending free list, the buffer, `rightPtr` and the
capacity are untouched. -/
theorem ringpool_free_inorder (s : RingPool) (p : Nat)
    (_hp : 8 ≤ p) (hleft : p - 8 = s.leftPtr) :
    ((RingPool.free s (some p)).leftPtr =
      if s.leftPtr + s.mem s.leftPtr = s.paddingPtr then 0
      else s.leftPtr + s.mem s.leftPtr) ∧
    ((RingPool.free s (some p)).paddingPtr =
      if s.leftPtr + s.mem s.leftPtr = s.paddingPtr then 0 else s.paddingPtr) ∧
    (RingPool.free s (some p)).freeList = s.freeList ∧
    (RingPool.free s (some p)).mem = s.mem ∧
    (RingPool.free s (some p)).rightPtr = s.rightPtr ∧
    (RingPool.free s (some p)).poolCapacity = s.poolCapacity := by
  by_cases hpad : s.leftPtr + s.mem s.leftPtr = s.paddingPtr
  · simp [RingPool.free, hleft, hpad]
  · simp [RingPool.free, hleft, hpad]

/-- Witness for C6: a pool whose leftmost block (at offset 8, size 16)
is freed in order. -/
theorem ringpool_free_inorder_witness :
    ((8 : Nat) ≤ 16 ∧ (16 : Nat) - 8 = 8) ∧
    ((RingPool.free ⟨100, 50, 8, 0, [], fun _ => 16⟩ (some 16)).leftPtr =
        (if 8 + 16 = 0 then 0 else 8 + 16) ∧
      (RingPool.free ⟨100, 50, 8, 0, [], fun _ => 16⟩ (some 16)).paddingPtr =
        (if 8 + 16 = 0 then 0 else 0) ∧
      (RingPool.free ⟨100, 50, 8, 0, [], fun _ => 16⟩ (some 16)).freeList = [] ∧
      (RingPool.free ⟨100, 50, 8, 0, [], fun _ => 16⟩ (some 16)).mem = (fun _ => 16) ∧
      (RingPool.free ⟨100, 50, 8, 0, [], fun _ => 16⟩ (some 16)).rightPtr = 50 ∧
      (RingPool.free ⟨100, 50, 8, 0, [], fun _ => 16⟩ (some 16)).poolCapacity = 100) :=
  ⟨⟨by norm_num, by norm_num⟩,
    ringpool_free_inorder ⟨100, 50, 8, 0, [], fun _ => 16⟩ 16
      (by norm_num) (by norm_num)⟩

/-- C10.  Concurrent ring pool: `free(nullptr)` returns immediately and is
a no-op — the entire state (`leftPtr`, `rightPtr`, `paddingPtr`, pending
free list and buffer contents) is unchanged. -/
theorem ringpool_free_null (s : RingPool) : RingPool.free s none = s := rfl
